import Mathlib

/-!
Verification of yadslib's `binary_search_tree` (src/include/bst.h).

The C++ container is a binary search tree acting as a set: each heap-allocated
`node` stores `data`, a `parent` pointer and two child pointers `edge[0]`
(left) / `edge[1]` (right); the container stores `root` and `m_size`.

Embedding.  Nodes are modelled as an inductive tree whose constructor carries
the allocation identity `id : Nat` (modelling the node's address), the stored
key `data : Int` (instantiating the `_Key` template parameter with a linearly
ordered type), the stored `parent` field as `Option Nat` (the parent's
address, `none` modelling `NULL`), and the two subtrees.  Pointer updates
performed by the source become rebuilds of the access path in which every
untouched node keeps its `id`, `data` and `parent` fields bit for bit; only
the fields the source writes change.  Iterators (`node_iterator`) hold a
node pointer or `NULL`; they are modelled as `Option (Nat × Int)`: the
address together with the pointee's `data` (the two pieces of a node pointer
that `operator==` and `operator*` consume).  The parent-pointer climb of
`inorder_traversal::successor` dereferences addresses, modelled by the lookup
`findId` plus a fuel bound on the length of the parent chain.

`create_node` (bst.h:261-267) allocates raw storage with
`node_alloc.allocate(1)` and writes only `data` and `parent`; `edge[0]` and
`edge[1]` are never written, so a freshly created node keeps whatever the
allocation happened to contain.  The algebraic model instantiates the two
child fields with the absent child (`T.nil`), which is the value every other
routine of the source assumes them to have; the heap-level model `create_nodeH`
below keeps the residual contents of the allocation explicit, which is what
the source actually does.
-/

namespace Yadslib

abbrev Key := Int

/-- Model of `struct node` (bst.h:27-51): `id` is the allocation identity
(the node's address), `data` the stored key, `parent` the stored parent
pointer, `left`/`right` the subtrees hanging off `edge[0]`/`edge[1]`. -/
inductive T where
  | nil : T
  | node (id : Nat) (data : Key) (parent : Option Nat) (left : T) (right : T) : T
deriving DecidableEq

/-- Keys of a tree in symmetric (in-order) order. -/
def keysT : T → List Key
  | .nil => []
  | .node _ d _ l r => keysT l ++ d :: keysT r

/-- Allocation identities occurring in a tree (pre-order). -/
def idsT : T → List Nat
  | .nil => []
  | .node i _ _ l r => i :: (idsT l ++ idsT r)

/-- Number of nodes of a tree. -/
def sizeT : T → Nat
  | .nil => 0
  | .node _ _ _ l r => sizeT l + sizeT r + 1

/-- BST ordering invariant: at every node, keys of the left subtree are
strictly below the node's key and keys of the right subtree strictly above. -/
def Ordered : T → Prop
  | .nil => True
  | .node _ d _ l r =>
      (∀ k ∈ keysT l, k < d) ∧ (∀ k ∈ keysT r, d < k) ∧ Ordered l ∧ Ordered r

instance Ordered.instDec : (t : T) → Decidable (Ordered t)
  | .nil => .isTrue trivial
  | .node _ d _ l r =>
      haveI := Ordered.instDec l
      haveI := Ordered.instDec r
      decidable_of_iff
        ((∀ k ∈ keysT l, k < d) ∧ (∀ k ∈ keysT r, d < k) ∧ Ordered l ∧ Ordered r)
        Iff.rfl

/-- Back-reference consistency: the stored `parent` field of every node equals
the address of the node that holds it as a child; `q` is the address expected
at the root of `t` (`none` for the tree root). -/
def ParentsOk : T → Option Nat → Prop
  | .nil, _ => True
  | .node i _ p l r, q => p = q ∧ ParentsOk l (some i) ∧ ParentsOk r (some i)

instance ParentsOk.instDec : (t : T) → (q : Option Nat) → Decidable (ParentsOk t q)
  | .nil, _ => .isTrue trivial
  | .node i _ p l r, q =>
      haveI := ParentsOk.instDec l (some i)
      haveI := ParentsOk.instDec r (some i)
      decidable_of_iff (p = q ∧ ParentsOk l (some i) ∧ ParentsOk r (some i)) Iff.rfl

/-- Model of the container state (bst.h:234-239): `root`, `m_size`, and the
next fresh allocation identity handed out by the allocator model. -/
structure BST where
  root : T
  m_size : Nat
  nextId : Nat
deriving DecidableEq

/-- The default-constructed tree (bst.h:118): `root = NULL`, `m_size = 0`. -/
def BST.empty : BST := ⟨T.nil, 0, 0⟩

/-- Well-formed container: BST ordering, back-reference consistency from a
parentless root, distinct node addresses bounded by the allocation counter,
and a size field counting the reachable nodes. -/
def WF (b : BST) : Prop :=
  Ordered b.root ∧ ParentsOk b.root none ∧ (idsT b.root).Nodup ∧
    (∀ i ∈ idsT b.root, i < b.nextId) ∧ b.m_size = sizeT b.root

instance WF.instDec (b : BST) : Decidable (WF b) := by
  unfold WF; infer_instance

/-- Model of `find_node` (bst.h:271-279): descend from the root, stopping at
the node whose `data` equals `x` (returning its address and data, the pieces
of the returned pointer that the callers consume) or at `NULL` (`none`).  The
walk takes `edge[0]` when `x < data` and `edge[1]` otherwise, exactly as the
loop does. -/
def find_node (x : Key) : T → Option (Nat × Key)
  | .nil => none
  | .node i d _ l r =>
      if x = d then some (i, d)
      else if x < d then find_node x l
      else find_node x r

/-- Fresh node as written by `create_node` (bst.h:261-267) with the child
fields at the benign instantiation `T.nil` (see the header comment: the
source leaves `edge[0]`/`edge[1]` unwritten). -/
def create_node (x : Key) (parent : Option Nat) (newId : Nat) : T :=
  T.node newId x parent T.nil T.nil

/-- Model of the `insert` walk (bst.h:127-155).  The `.nil` equation is the
`root == NULL` special case (bst.h:129-131), which creates a parentless node;
the recursive equations are the descent loop: stop on an equal key returning
the existing node and `false`; otherwise take the left edge when `x < data`
and the right edge otherwise; on an absent child slot attach
`create_node x (some id)` there and return the new node and `true`.
Returns the rebuilt tree, the returned iterator's node, and `inserted`. -/
def insertT (x : Key) (newId : Nat) : T → T × (Nat × Key) × Bool
  | .nil => (create_node x none newId, (newId, x), true)
  | .node i d p l r =>
      if x = d then (T.node i d p l r, (i, d), false)
      else if x < d then
        if l = T.nil then (T.node i d p (create_node x (some i) newId) r, (newId, x), true)
        else
          let res := insertT x newId l
          (T.node i d p res.1 r, res.2)
      else
        if r = T.nil then (T.node i d p l (create_node x (some i) newId), (newId, x), true)
        else
          let res := insertT x newId r
          (T.node i d p l res.1, res.2)

/-- Model of `insert` (bst.h:127-155) at the container level: `create_node`
increments `m_size` (and consumes a fresh address) exactly when a node is
created. -/
def BST.insert (b : BST) (x : Key) : BST × (Nat × Key) × Bool :=
  let res := insertT x b.nextId b.root
  (⟨res.1, if res.2.2 then b.m_size + 1 else b.m_size,
    if res.2.2 then b.nextId + 1 else b.nextId⟩, res.2)

/-- Setting the stored `parent` field of the root of a subtree, as in
`n->left()->parent = pn` (bst.h:173) and the analogous writes. -/
def setParentT : T → Option Nat → T
  | .nil, _ => .nil
  | .node i d _ l r, q => T.node i d q l r

/-- Model of the erase case-3 splice (bst.h:191-195): walk to the leftmost
node `ln` of the subtree, make its parent's left edge point at `ln`'s right
child and, if that child exists, set the child's stored parent to `ln`'s
stored parent (`ln->right()->parent = ln->parent`).  Returns `ln`'s address
and data together with the subtree after the splice; `none` on the absent
tree (the source only calls this on a non-null pointer). -/
def spliceLeftmost : T → Option (Nat × Key × T)
  | .nil => none
  | .node i d p l r =>
      match spliceLeftmost l with
      | none => some (i, d, setParentT r p)
      | some (j, e, l2) => some (j, e, T.node i d p l2 r)

/-- Structural removal of a located node (bst.h:168-199), given its fields
and the address `p` of its parent slot.  Case `right = NULL` (bst.h:170-177):
splice the left child into the slot, updating its stored parent.  Case right
child without left child (bst.h:179-188): the right child inherits the left
subtree (whose stored parent is pointed at it), takes over the slot and the
parent `p`.  Case right child with a left child (bst.h:189-198): splice out
`ln = left_most(rn->left())` and put `ln`'s data into the located node
(`std::swap(n, ln); std::swap(n->data, ln->data)`), destroying `ln`'s
storage. -/
def eraseRoot (i : Nat) (d : Key) (p : Option Nat) (l r : T) : T :=
  match r with
  | .nil => setParentT l p
  | .node ri rd rp rl rr =>
      match rl with
      | .nil => T.node ri rd p (setParentT l (some ri)) rr
      | .node a b c e f =>
          match spliceLeftmost (T.node a b c e f) with
          | none => T.nil
          | some (_, e2, rl2) => T.node i e2 p l (T.node ri rd rp rl2 rr)

/-- Model of the `erase` walk (bst.h:163-202): locate the node holding `x`
by the `find_node` descent; `none` when absent (no mutation), otherwise the
tree with the located node structurally removed.  The rebuilt spine models
the in-place update `pn->edge[dir] = ...` of the located node's parent. -/
def eraseT (x : Key) : T → Option T
  | .nil => none
  | .node i d p l r =>
      if x = d then some (eraseRoot i d p l r)
      else if x < d then
        match eraseT x l with
        | none => none
        | some l2 => some (T.node i d p l2 r)
      else
        match eraseT x r with
        | none => none
        | some r2 => some (T.node i d p l r2)

/-- Model of `erase` (bst.h:163-202) at the container level: not found
returns `0` with no mutation; otherwise `destroy_node` decrements `m_size`
and the call returns `1`. -/
def BST.erase (b : BST) (x : Key) : BST × Nat :=
  match eraseT x b.root with
  | none => (b, 0)
  | some t2 => (⟨t2, b.m_size - 1, b.nextId⟩, 1)

/-- Model of `node::left_most` (bst.h:41-45): follow `edge[0]` while it is
non-null; returns the address and data of the node reached.  On the absent
tree the source would dereference `NULL`; the model returns `none`. -/
def left_most : T → Option (Nat × Key)
  | .nil => none
  | .node i d _ l _ =>
      match left_most l with
      | none => some (i, d)
      | some q => some q

/-- Model of `node::right_most` (bst.h:46-50), symmetric to `left_most`. -/
def right_most : T → Option (Nat × Key)
  | .nil => none
  | .node i d _ _ r =>
      match right_most r with
      | none => some (i, d)
      | some q => some q

/-- Model of `min` (bst.h:223-226): `left_most(root)->data`.  On an empty
tree the source unconditionally dereferences the absent root (undefined
behavior); the model reports this as `none`. -/
def BST.min (b : BST) : Option Key :=
  match left_most b.root with
  | none => none
  | some q => some q.2

/-- Model of `max` (bst.h:228-231): `right_most(root)->data`; `none` models
the dereference of the absent root on an empty tree. -/
def BST.max (b : BST) : Option Key :=
  match right_most b.root with
  | none => none
  | some q => some q.2

/-- Model of `count` (bst.h:210-213). -/
def BST.count (b : BST) (x : Key) : Nat :=
  match find_node x b.root with
  | none => 0
  | some _ => 1

/-- Iterator model: a node pointer (`none` = `NULL`, the past-the-end
iterator) carrying the pointee's address and data. -/
abbrev Iter := Option (Nat × Key)

/-- Model of `find` (bst.h:215-218): `iterator(find_node(x, dir), false)`. -/
def BST.find (b : BST) (x : Key) : Iter := find_node x b.root

/-- Model of `begin` (bst.h:220): `iterator(root, true)`, whose constructor
moves to `left_most(root)` when the root is non-null. -/
def BST.begin (b : BST) : Iter := left_most b.root

/-- Model of `end` (bst.h:221): `iterator(NULL, false)`. -/
def BST.endIter (_ : BST) : Iter := none

/-- Model of `node_iterator::operator==` (bst.h:104-106): two iterators are
equal when both are `NULL` or both point at nodes whose `data` compare
equal (`node::operator==`, bst.h:38). -/
def iterEq : Iter → Iter → Bool
  | none, none => true
  | some (_, d1), some (_, d2) => d1 == d2
  | _, _ => false

/-- Dereference of a node address in the tree, modelling a pointer access of
the successor climb: the `data`, `parent`, `left` and `right` fields of the
node allocated at address `i`. -/
def findId : T → Nat → Option (Key × Option Nat × T × T)
  | .nil, _ => none
  | .node j d p l r, i =>
      if i = j then some (d, p, l, r)
      else
        match findId l i with
        | some res => some res
        | none => findId r i

/-- Address at the root of a subtree (`none` for the absent tree). -/
def rootId : T → Option Nat
  | .nil => none
  | .node i _ _ _ _ => some i

/-- Model of the parent-pointer climb of `inorder_traversal::successor`
(bst.h:76-80): while the node has a parent and is not its parent's left
child, go up; then step to the parent (`none` past the root).  `fuel` bounds
the length of the parent chain. -/
def climb (t : T) : Nat → Nat → Iter
  | 0, _ => none
  | fuel + 1, i =>
      match findId t i with
      | none => none
      | some (_, p, _, _) =>
          match p with
          | none => none
          | some pi =>
              match findId t pi with
              | none => none
              | some (pd, _, pl, _) =>
                  if rootId pl = some i then some (pi, pd) else climb t fuel pi

/-- Model of `inorder_traversal::successor` (bst.h:67-82): with a right
child, the successor is `left_most(right)`; otherwise the parent climb. -/
def successorN (t : T) (i : Nat) : Iter :=
  match findId t i with
  | none => none
  | some (_, _, _, r) =>
      match r with
      | .nil => climb t (sizeT t) i
      | .node a b c e f => left_most (T.node a b c e f)

/-- Keys produced by repeatedly advancing an iterator with `successor` until
it is past the end (`operator++` / `operator*` of `node_iterator`).  `fuel`
bounds the number of emitted keys. -/
def iterFrom (t : T) : Nat → Iter → List Key
  | 0, _ => []
  | fuel + 1, it =>
      match it with
      | none => []
      | some (i, d) => d :: iterFrom t fuel (successorN t i)

/-- Full in-order iteration of the container from `begin()` to `end()`. -/
def traversal (b : BST) : List Key :=
  iterFrom b.root (sizeT b.root) b.begin

/-- Model of `clear` (bst.h:125, 242-251): `destroy_node_descendants`
releases every reachable node, `destroy_node` decrementing `m_size` once per
node and resetting `root` when the last destruction empties the container. -/
def BST.clear (b : BST) : BST :=
  ⟨T.nil, b.m_size - sizeT b.root, b.nextId⟩

/-- Model of the iterator-range `insert` overload (bst.h:157-161): repeated
single-key insertion in sequence order, starting from the given state. -/
def insertList (b : BST) : List Key → BST
  | [] => b
  | x :: xs => insertList (b.insert x).1 xs

/-- Insertion of a key sequence into the empty container. -/
def insertAll (ks : List Key) : BST := insertList BST.empty ks

/-- A single public mutation of the container. -/
inductive Op where
  | ins (k : Key)
  | del (k : Key)
deriving DecidableEq

/-- Application of one operation, keeping the container state. -/
def applyOp (b : BST) : Op → BST
  | .ins k => (b.insert k).1
  | .del k => (b.erase k).1

/-- Application of a finite call sequence starting from the empty tree. -/
def runOps : List Op → BST
  | [] => BST.empty
  | o :: os => applyOp (runOps os) o

/-- Subtree occurrence: `Sub s t` states that `s` is (the subtree hanging
off) one of the nodes of `t`, or `t` itself. -/
inductive Sub : T → T → Prop
  | refl (t : T) : Sub t t
  | left {s l r : T} (i : Nat) (d : Key) (p : Option Nat) :
      Sub s l → Sub s (T.node i d p l r)
  | right {s l r : T} (i : Nat) (d : Key) (p : Option Nat) :
      Sub s r → Sub s (T.node i d p l r)

/-- One-leaf extension: the second tree is the first with exactly one absent
child slot replaced by a fresh leaf `T.node n x (some parent) T.nil T.nil`,
every other node keeping its `id`, `data`, `parent` and its other child.
This is the frame footprint of a successful insertion. -/
inductive OneExt (n : Nat) (x : Key) : T → T → Prop
  | hereL (i : Nat) (d : Key) (p : Option Nat) (r : T) :
      OneExt n x (T.node i d p T.nil r)
        (T.node i d p (T.node n x (some i) T.nil T.nil) r)
  | hereR (i : Nat) (d : Key) (p : Option Nat) (l : T) :
      OneExt n x (T.node i d p l T.nil)
        (T.node i d p l (T.node n x (some i) T.nil T.nil))
  | goL {l l2 : T} (i : Nat) (d : Key) (p : Option Nat) (r : T) :
      OneExt n x l l2 → OneExt n x (T.node i d p l r) (T.node i d p l2 r)
  | goR {r r2 : T} (i : Nat) (d : Key) (p : Option Nat) (l : T) :
      OneExt n x r r2 → OneExt n x (T.node i d p l r) (T.node i d p l r2)

/-- Position context (zipper) locating a subtree inside a tree: the innermost
frame comes first.  `inL i d p r c` states that the located subtree is the
left child of a node with address `i`, data `d`, stored parent `p` and right
subtree `r`, itself located by `c`; `inR` is symmetric.  Contexts are proof
machinery for the successor climb; they are not part of the source model. -/
inductive Ctx where
  | top : Ctx
  | inL (i : Nat) (d : Key) (p : Option Nat) (r : T) (c : Ctx) : Ctx
  | inR (i : Nat) (d : Key) (p : Option Nat) (l : T) (c : Ctx) : Ctx

/-- Rebuilding the whole tree from a context and the subtree in its hole. -/
def plug : Ctx → T → T
  | .top, s => s
  | .inL i d p r c, s => plug c (T.node i d p s r)
  | .inR i d p l c, s => plug c (T.node i d p l s)

/-- Address of the node owning the hole (`none` at the top). -/
def ctxHead : Ctx → Option Nat
  | .top => none
  | .inL i _ _ _ _ => some i
  | .inR i _ _ _ _ => some i

/-- Number of frames of a context. -/
def ctxDepth : Ctx → Nat
  | .top => 0
  | .inL _ _ _ _ c => ctxDepth c + 1
  | .inR _ _ _ _ c => ctxDepth c + 1

/-- The node the successor climb reaches from the hole: the innermost frame
from which the hole hangs to the left (`none` when the climb runs off the
root). -/
def nextUp : Ctx → Iter
  | .top => none
  | .inL i d _ _ _ => some (i, d)
  | .inR _ _ _ _ c => nextUp c

/-- Keys situated after the hole's subtree in symmetric order. -/
def afterK : Ctx → List Key
  | .top => []
  | .inL _ d _ r c => d :: (keysT r ++ afterK c)
  | .inR _ _ _ _ c => afterK c

/-- Heap-level model of one node cell for the `create_node` analysis. -/
structure CNode where
  data : Key
  parent : Option Nat
  left : Option Nat
  right : Option Nat
deriving DecidableEq

/-- Heap-level model of `create_node` (bst.h:261-267): `node_alloc.allocate(1)`
returns a cell whose contents are the residual bytes of the allocation; the
function then writes `data` and `parent` and returns.  `edge[0]` and
`edge[1]` are never written, so the fresh node's child links keep the
residual contents. -/
def create_nodeH (residual : CNode) (x : Key) (parent : Option Nat) : CNode :=
  { residual with data := x, parent := parent }

/-- Heap-level model of `insert` on the empty container (bst.h:129-131):
`root = create_node(x, NULL)`, placed at a fresh address, size becomes 1. -/
def insertEmptyH (residual : CNode) (x : Key) : (Nat × CNode) × Nat :=
  ((0, create_nodeH residual x none), 1)

/-! ### Basic structural lemmas -/

theorem keysT_setParentT (t : T) (q : Option Nat) : keysT (setParentT t q) = keysT t := by
  cases t <;> rfl

theorem idsT_setParentT (t : T) (q : Option Nat) : idsT (setParentT t q) = idsT t := by
  cases t <;> rfl

theorem Ordered_setParentT {t : T} (q : Option Nat) (h : Ordered t) :
    Ordered (setParentT t q) := by
  cases t <;> exact h

theorem sizeT_eq_keysT_length (t : T) : sizeT t = (keysT t).length := by
  induction t with
  | nil => rfl
  | node i d p l r ihl ihr => simp [sizeT, keysT, ihl, ihr]; omega

theorem sizeT_eq_idsT_length (t : T) : sizeT t = (idsT t).length := by
  induction t with
  | nil => rfl
  | node i d p l r ihl ihr => simp [sizeT, idsT, ihl, ihr] <;> omega

theorem keysT_eq_nil_iff {t : T} : keysT t = [] ↔ t = T.nil := by
  cases t <;> simp [keysT]

theorem Ordered_node {i : Nat} {d : Key} {p : Option Nat} {l r : T} :
    Ordered (T.node i d p l r) ↔
      ((∀ k ∈ keysT l, k < d) ∧ (∀ k ∈ keysT r, d < k) ∧ Ordered l ∧ Ordered r) :=
  Iff.rfl

theorem ParentsOk_node {i : Nat} {d : Key} {p q : Option Nat} {l r : T} :
    ParentsOk (T.node i d p l r) q ↔
      (p = q ∧ ParentsOk l (some i) ∧ ParentsOk r (some i)) :=
  Iff.rfl

theorem ParentsOk_setParentT {t : T} {q0 : Option Nat} (q : Option Nat)
    (h : ParentsOk t q0) : ParentsOk (setParentT t q) q := by
  cases t with
  | nil => trivial
  | node i d p l r => exact ⟨rfl, h.2.1, h.2.2⟩

theorem sorted_keysT {t : T} (h : Ordered t) : (keysT t).Sorted (· < ·) := by
  induction t with
  | nil => simp [keysT]
  | node i d p l r ihl ihr =>
      obtain ⟨h1, h2, h3, h4⟩ := h
      simp only [keysT, List.Sorted, List.pairwise_append, List.pairwise_cons]
      refine ⟨ihl h3, ⟨fun b hb => h2 b hb, ihr h4⟩, ?_⟩
      intro a ha b hb
      rcases List.mem_cons.mp hb with hb | hb
      · exact hb ▸ h1 a ha
      · exact (h1 a ha).trans (h2 b hb)

theorem nodup_keysT {t : T} (h : Ordered t) : (keysT t).Nodup :=
  (sorted_keysT h).nodup

theorem not_mem_middle_of_sorted {x : Key} {u v : List Key}
    (h : (u ++ x :: v).Sorted (· < ·)) : x ∉ u ∧ x ∉ v := by
  simp only [List.Sorted, List.pairwise_append, List.pairwise_cons] at h
  obtain ⟨hu, ⟨hv, _⟩, huv⟩ := h
  constructor
  · intro hx
    exact lt_irrefl x (huv x hx x (List.mem_cons_self x v))
  · intro hx
    exact lt_irrefl x (hv x hx)

/-! ### `find_node` -/

theorem find_node_some {x : Key} {t : T} {q : Nat × Key} (h : find_node x t = some q) :
    q.2 = x ∧ x ∈ keysT t := by
  induction t with
  | nil => simp [find_node] at h
  | node i d p l r ihl ihr =>
      simp only [find_node] at h
      split_ifs at h with h1 h2
      · cases h
        exact ⟨h1.symm, by simp [keysT, h1]⟩
      · obtain ⟨hq, hm⟩ := ihl h
        exact ⟨hq, by simp [keysT, hm]⟩
      · obtain ⟨hq, hm⟩ := ihr h
        exact ⟨hq, by simp [keysT, hm]⟩

theorem find_node_mem {x : Key} {t : T} (ho : Ordered t) (h : x ∈ keysT t) :
    ∃ i, find_node x t = some (i, x) := by
  induction t with
  | nil => simp [keysT] at h
  | node i d p l r ihl ihr =>
      obtain ⟨h1, h2, h3, h4⟩ := ho
      simp only [keysT, List.mem_append, List.mem_cons] at h
      by_cases hxd : x = d
      · exact ⟨i, by simp [find_node, hxd]⟩
      · rcases h with h | h | h
        · have hlt : x < d := h1 x h
          obtain ⟨j, hj⟩ := ihl h3 h
          exact ⟨j, by simp [find_node, hxd, hlt, hj]⟩
        · exact absurd h hxd
        · have hgt : d < x := h2 x h
          obtain ⟨j, hj⟩ := ihr h4 h
          exact ⟨j, by simp [find_node, hxd, not_lt.mpr (le_of_lt hgt), hj]⟩

theorem find_node_eq_none_iff {x : Key} {t : T} (ho : Ordered t) :
    find_node x t = none ↔ x ∉ keysT t := by
  constructor
  · intro h hm
    obtain ⟨i, hi⟩ := find_node_mem ho hm
    rw [h] at hi
    exact absurd hi (by simp)
  · intro hm
    cases hq : find_node x t with
    | none => rfl
    | some q => exact absurd (find_node_some hq).2 hm

/-! ### `insert` -/

theorem insertT_found {x : Key} {n : Nat} {t : T} {q : Nat × Key}
    (h : find_node x t = some q) : insertT x n t = (t, q, false) := by
  induction t with
  | nil => simp [find_node] at h
  | node i d p l r ihl ihr =>
      simp only [find_node] at h
      simp only [insertT]
      split_ifs at h ⊢ with h1 h2 h3 h3
      · cases h; rfl
      · subst h3; simp [find_node] at h
      · simp [ihl h]
      · subst h3; simp [find_node] at h
      · simp [ihr h]

theorem insertT_snd_of_none {x : Key} {n : Nat} {t : T} (h : find_node x t = none) :
    (insertT x n t).2 = ((n, x), true) := by
  induction t with
  | nil => rfl
  | node i d p l r ihl ihr =>
      simp only [find_node] at h
      simp only [insertT]
      split_ifs at h ⊢ with h1 h2 h3 h3
      · rfl
      · simpa using ihl h
      · rfl
      · simpa using ihr h

theorem insertT_keys_split {x : Key} {n : Nat} {t : T} (h : find_node x t = none) :
    ∃ u v, keysT t = u ++ v ∧ keysT (insertT x n t).1 = u ++ x :: v := by
  induction t with
  | nil => exact ⟨[], [], rfl, rfl⟩
  | node i d p l r ihl ihr =>
      simp only [find_node] at h
      simp only [insertT]
      split_ifs at h ⊢ with h1 h2 h3 h3
      · subst h3
        exact ⟨[], d :: keysT r, by simp [keysT], by simp [keysT, create_node]⟩
      · obtain ⟨u, v, hk1, hk2⟩ := ihl h
        refine ⟨u, v ++ d :: keysT r, ?_, ?_⟩
        · simp [keysT, hk1]
        · simp [keysT, hk2]
      · subst h3
        exact ⟨keysT l ++ [d], [], by simp [keysT], by simp [keysT, create_node]⟩
      · obtain ⟨u, v, hk1, hk2⟩ := ihr h
        refine ⟨keysT l ++ d :: u, v, ?_, ?_⟩
        · simp [keysT, hk1]
        · simp [keysT, hk2]

theorem insertT_ids_perm {x : Key} {n : Nat} {t : T} (h : find_node x t = none) :
    (idsT (insertT x n t).1).Perm (n :: idsT t) := by
  induction t with
  | nil => simp [insertT, create_node, idsT]
  | node i d p l r ihl ihr =>
      simp only [find_node] at h
      simp only [insertT]
      split_ifs at h ⊢ with h1 h2 h3 h3
      · subst h3
        simp only [idsT, create_node, List.nil_append, List.append_nil]
        exact List.Perm.swap n i (idsT r)
      · simp only [idsT]
        refine List.Perm.trans (List.Perm.cons i ((ihl h).append_right _)) ?_
        exact List.Perm.swap n i _
      · subst h3
        simp only [idsT, create_node, List.append_nil, List.nil_append]
        exact List.Perm.trans (List.Perm.cons i List.perm_append_comm)
          (List.Perm.swap n i _)
      · simp only [idsT]
        refine List.Perm.trans (List.Perm.cons i ?_) (List.Perm.swap n i _)
        exact List.Perm.trans ((ihr h).append_left _) List.perm_middle

theorem insertT_keys_mem {x : Key} {n : Nat} {t : T} {k : Key}
    (hm : k ∈ keysT (insertT x n t).1) : k = x ∨ k ∈ keysT t := by
  cases hf : find_node x t with
  | some q => rw [insertT_found hf] at hm; exact Or.inr hm
  | none =>
      obtain ⟨u, v, hk1, hk2⟩ := insertT_keys_split (n := n) hf
      rw [hk2] at hm
      rw [hk1]
      simp only [List.mem_append, List.mem_cons] at hm ⊢
      tauto

theorem insertT_ordered {x : Key} {n : Nat} : ∀ {t : T}, Ordered t →
    Ordered (insertT x n t).1 := by
  intro t
  induction t with
  | nil => intro _; simp [insertT, create_node, Ordered, keysT]
  | node i d p l r ihl ihr =>
      intro ho
      obtain ⟨h1, h2, h3, h4⟩ := ho
      have hdx : ¬ x = d → ¬ x < d → d < x := fun ha hb =>
        lt_of_le_of_ne (not_lt.mp hb) (fun he => ha he.symm)
      simp only [insertT]
      split_ifs with hx1 hx2 hx3 hx3
      · exact ⟨h1, h2, h3, h4⟩
      · subst hx3
        refine ⟨?_, h2, ?_, h4⟩
        · intro k hk
          simp only [create_node, keysT, List.append_nil, List.nil_append,
            List.mem_singleton] at hk
          exact hk ▸ hx2
        · simp [create_node, Ordered, keysT]
      · refine ⟨?_, h2, ihl h3, h4⟩
        intro k hk
        rcases insertT_keys_mem hk with hk | hk
        · exact hk ▸ hx2
        · exact h1 k hk
      · subst hx3
        refine ⟨h1, ?_, h3, ?_⟩
        · intro k hk
          simp only [create_node, keysT, List.append_nil, List.nil_append,
            List.mem_singleton] at hk
          exact hk ▸ hdx hx1 hx2
        · simp [create_node, Ordered, keysT]
      · refine ⟨h1, ?_, h3, ihr h4⟩
        intro k hk
        rcases insertT_keys_mem hk with hk | hk
        · exact hk ▸ hdx hx1 hx2
        · exact h2 k hk

theorem insertT_parentsOk {x : Key} {n : Nat} : ∀ {t : T} {q : Option Nat}, t ≠ T.nil →
    ParentsOk t q → ParentsOk (insertT x n t).1 q := by
  intro t
  induction t with
  | nil => intro q h; exact absurd rfl h
  | node i d p l r ihl ihr =>
      intro q _ hp
      obtain ⟨hp1, hp2, hp3⟩ := hp
      simp only [insertT]
      split_ifs with hx1 hx2 hx3 hx3
      · exact ⟨hp1, hp2, hp3⟩
      · exact ⟨hp1, ⟨rfl, trivial, trivial⟩, hp3⟩
      · exact ⟨hp1, ihl hx3 hp2, hp3⟩
      · exact ⟨hp1, hp2, ⟨rfl, trivial, trivial⟩⟩
      · exact ⟨hp1, hp2, ihr hx3 hp3⟩

theorem insertT_oneExt {x : Key} {n : Nat} : ∀ {t : T}, find_node x t = none →
    t ≠ T.nil → OneExt n x t (insertT x n t).1 := by
  intro t
  induction t with
  | nil => intro _ h; exact absurd rfl h
  | node i d p l r ihl ihr =>
      intro h _
      simp only [find_node] at h
      simp only [insertT]
      split_ifs at h ⊢ with h1 h2 h3 h3
      · subst h3; exact OneExt.hereL i d p r
      · exact OneExt.goL i d p r (ihl h h3)
      · subst h3; exact OneExt.hereR i d p l
      · exact OneExt.goR i d p l (ihr h h3)

/-! ### Container-level `insert` -/

theorem insert_root_eq (b : BST) (x : Key) :
    (b.insert x).1.root = (insertT x b.nextId b.root).1 := rfl

theorem insert_snd_eq (b : BST) (x : Key) :
    (b.insert x).2 = (insertT x b.nextId b.root).2 := rfl

theorem insert_of_found {b : BST} {x : Key} {q : Nat × Key}
    (h : find_node x b.root = some q) : b.insert x = (b, q, false) := by
  cases b with
  | mk root ms ni => simp [BST.insert, insertT_found h]

theorem insert_of_none {b : BST} {x : Key} (h : find_node x b.root = none) :
    (b.insert x).2 = ((b.nextId, x), true) ∧
    (b.insert x).1.m_size = b.m_size + 1 ∧ (b.insert x).1.nextId = b.nextId + 1 := by
  have hs := insertT_snd_of_none (n := b.nextId) h
  refine ⟨by rw [insert_snd_eq, hs], ?_, ?_⟩ <;>
    simp [BST.insert, hs]

theorem Ordered_insert {b : BST} (x : Key) (ho : Ordered b.root) :
    Ordered (b.insert x).1.root :=
  insertT_ordered ho

theorem mem_keysT_insert {b : BST} {x : Key} (ho : Ordered b.root) (k : Key) :
    k ∈ keysT (b.insert x).1.root ↔ (k = x ∨ k ∈ keysT b.root) := by
  constructor
  · exact insertT_keys_mem
  · intro hk
    cases hf : find_node x b.root with
    | some q =>
        rw [insert_root_eq, insertT_found hf]
        rcases hk with hk | hk
        · subst hk
          exact (find_node_some hf).2
        · exact hk
    | none =>
        obtain ⟨u, v, hk1, hk2⟩ := insertT_keys_split (n := b.nextId) hf
        rw [insert_root_eq, hk2]
        rcases hk with hk | hk
        · simp [hk]
        · rw [hk1] at hk
          simp only [List.mem_append, List.mem_cons] at hk ⊢
          tauto

theorem WF_insert {b : BST} (x : Key) (h : WF b) : WF (b.insert x).1 := by
  obtain ⟨ho, hp, hnd, hbd, hsz⟩ := h
  cases hf : find_node x b.root with
  | some q => rw [insert_of_found hf]; exact ⟨ho, hp, hnd, hbd, hsz⟩
  | none =>
      have hperm := insertT_ids_perm (n := b.nextId) hf
      have hs := insertT_snd_of_none (n := b.nextId) hf
      refine ⟨insertT_ordered ho, ?_, ?_, ?_, ?_⟩
      · rw [insert_root_eq]
        cases hr : b.root with
        | nil => simp [insertT, create_node, ParentsOk]
        | node i d p l r =>
            rw [← hr]
            exact insertT_parentsOk (by rw [hr]; simp) hp
      · rw [insert_root_eq]
        refine hperm.nodup_iff.mpr (List.nodup_cons.mpr ⟨?_, hnd⟩)
        intro hmem
        exact lt_irrefl b.nextId (hbd _ hmem)
      · intro i hi
        have : i ∈ b.nextId :: idsT b.root := hperm.mem_iff.mp (by rwa [insert_root_eq] at hi)
        have hni : (b.insert x).1.nextId = b.nextId + 1 := by simp [BST.insert, hs]
        rw [hni]
        rcases List.mem_cons.mp this with h | h
        · omega
        · have := hbd i h; omega
      · have hms : (b.insert x).1.m_size = b.m_size + 1 := by simp [BST.insert, hs]
        rw [hms, insert_root_eq, sizeT_eq_idsT_length, hperm.length_eq]
        simp [hsz, sizeT_eq_idsT_length]

/-! ### `erase` -/

theorem spliceLeftmost_eq_none_iff {t : T} : spliceLeftmost t = none ↔ t = T.nil := by
  cases t with
  | nil => simp [spliceLeftmost]
  | node i d p l r =>
      cases hsl : spliceLeftmost l with
      | none => simp [spliceLeftmost, hsl]
      | some q => cases q with | mk j q2 => cases q2 with | mk e l2 =>
          simp [spliceLeftmost, hsl]

theorem spliceLeftmost_spec {t : T} {j : Nat} {e : Key} {t2 : T}
    (h : spliceLeftmost t = some (j, e, t2)) :
    keysT t = e :: keysT t2 ∧ (idsT t).Perm (j :: idsT t2) ∧
      ∃ sp sr, Sub (T.node j e sp T.nil sr) t := by
  induction t generalizing t2 with
  | nil => simp [spliceLeftmost] at h
  | node i d p l r ihl ihr =>
      cases hsl : spliceLeftmost l with
      | none =>
          have hl : l = T.nil := spliceLeftmost_eq_none_iff.mp hsl
          subst hl
          simp only [spliceLeftmost, hsl, Option.some.injEq, Prod.mk.injEq] at h
          obtain ⟨rfl, rfl, rfl⟩ := h
          refine ⟨by simp [keysT, keysT_setParentT], ?_, p, r, Sub.refl _⟩
          simp only [idsT, idsT_setParentT, List.nil_append]
          exact List.Perm.refl _
      | some q =>
          obtain ⟨j0, e0, l2⟩ := q
          simp only [spliceLeftmost, hsl, Option.some.injEq, Prod.mk.injEq] at h
          obtain ⟨rfl, rfl, rfl⟩ := h
          obtain ⟨hk, hp, sp, sr, hsub⟩ := ihl hsl
          refine ⟨by simp [keysT, hk], ?_, sp, sr, Sub.left i d p hsub⟩
          simp only [idsT]
          refine List.Perm.trans (List.Perm.cons i (hp.append_right _)) ?_
          exact List.Perm.swap j0 i _

theorem spliceLeftmost_gt {t : T} {j : Nat} {e : Key} {t2 : T}
    (ho : Ordered t) (h : spliceLeftmost t = some (j, e, t2)) :
    ∀ k ∈ keysT t2, e < k := by
  have hk := (spliceLeftmost_spec h).1
  have hs := sorted_keysT ho
  rw [hk] at hs
  exact List.rel_of_sorted_cons hs

theorem spliceLeftmost_ordered {t : T} {j : Nat} {e : Key} {t2 : T}
    (ho : Ordered t) (h : spliceLeftmost t = some (j, e, t2)) :
    Ordered t2 := by
  induction t generalizing t2 with
  | nil => simp [spliceLeftmost] at h
  | node i d p l r ihl ihr =>
      cases hsl : spliceLeftmost l with
      | none =>
          simp only [spliceLeftmost, hsl, Option.some.injEq, Prod.mk.injEq] at h
          obtain ⟨rfl, rfl, rfl⟩ := h
          exact Ordered_setParentT p ho.2.2.2
      | some q =>
          obtain ⟨j0, e0, l2⟩ := q
          simp only [spliceLeftmost, hsl, Option.some.injEq, Prod.mk.injEq] at h
          obtain ⟨rfl, rfl, rfl⟩ := h
          obtain ⟨h1, h2, h3, h4⟩ := ho
          have hkl := (spliceLeftmost_spec hsl).1
          refine ⟨?_, h2, ihl h3 hsl, h4⟩
          intro k hkm
          exact h1 k (by rw [hkl]; exact List.mem_cons_of_mem _ hkm)

theorem eraseRoot_keysT (i : Nat) (d : Key) (p : Option Nat) (l r : T) :
    keysT (eraseRoot i d p l r) = keysT l ++ keysT r := by
  cases r with
  | nil => simp [eraseRoot, keysT_setParentT, keysT]
  | node ri rd rp rl rr =>
      cases rl with
      | nil => simp [eraseRoot, keysT, keysT_setParentT]
      | node a b c e f =>
          cases hs : spliceLeftmost (T.node a b c e f) with
          | none => exact absurd (spliceLeftmost_eq_none_iff.mp hs) (by simp)
          | some q =>
              obtain ⟨j, e2, rl2⟩ := q
              have hk := (spliceLeftmost_spec hs).1
              simp only [keysT] at hk
              simp only [eraseRoot, hs, keysT]
              rw [hk]
              simp [List.append_assoc]

theorem eraseRoot_ids (i : Nat) (d : Key) (p : Option Nat) (l r : T) :
    ∃ j, (idsT (T.node i d p l r)).Perm (j :: idsT (eraseRoot i d p l r)) := by
  cases r with
  | nil =>
      refine ⟨i, ?_⟩
      simp only [eraseRoot, idsT, idsT_setParentT, List.append_nil]
      exact List.Perm.refl _

  | node ri rd rp rl rr =>
      cases rl with
      | nil =>
          refine ⟨i, ?_⟩
          simp only [eraseRoot, idsT, idsT_setParentT, List.nil_append]
          exact List.Perm.cons i List.perm_middle
      | node a b c e f =>
          cases hs : spliceLeftmost (T.node a b c e f) with
          | none => exact absurd (spliceLeftmost_eq_none_iff.mp hs) (by simp)
          | some q =>
              obtain ⟨j, e2, rl2⟩ := q
              have hp := (spliceLeftmost_spec hs).2.1
              refine ⟨j, ?_⟩
              simp only [eraseRoot, hs, idsT]
              have s1 : ((idsT (T.node a b c e f)) ++ idsT rr).Perm
                  (j :: (idsT rl2 ++ idsT rr)) := hp.append_right _
              have s2 : (ri :: (idsT (T.node a b c e f) ++ idsT rr)).Perm
                  (j :: ri :: (idsT rl2 ++ idsT rr)) :=
                List.Perm.trans (List.Perm.cons ri s1) (List.Perm.swap j ri _)
              have s3 : (idsT l ++ ri :: (idsT (T.node a b c e f) ++ idsT rr)).Perm
                  (j :: (idsT l ++ ri :: (idsT rl2 ++ idsT rr))) :=
                List.Perm.trans (List.Perm.append_left _ s2) List.perm_middle
              exact List.Perm.trans (List.Perm.cons i s3) (List.Perm.swap j i _)

theorem eraseRoot_ordered {i : Nat} {d : Key} {p : Option Nat} {l r : T}
    (ho : Ordered (T.node i d p l r)) : Ordered (eraseRoot i d p l r) := by
  obtain ⟨h1, h2, h3, h4⟩ := ho
  cases r with
  | nil => exact Ordered_setParentT p h3
  | node ri rd rp rl rr =>
      obtain ⟨h5, h6, h7, h8⟩ := h4
      cases rl with
      | nil =>
          refine ⟨?_, h6, Ordered_setParentT _ h3, h8⟩
          intro k hk
          rw [keysT_setParentT] at hk
          exact (h1 k hk).trans (h2 rd (by simp [keysT]))
      | node a b c e f =>
          cases hs : spliceLeftmost (T.node a b c e f) with
          | none => exact absurd (spliceLeftmost_eq_none_iff.mp hs) (by simp)
          | some q =>
              obtain ⟨j, e2, rl2⟩ := q
              have hk := (spliceLeftmost_spec hs).1
              have he2m : e2 ∈ keysT (T.node a b c e f) := by
                rw [hk]; exact List.mem_cons_self _ _
              have he2 : e2 ∈ keysT (T.node ri rd rp (T.node a b c e f) rr) :=
                List.mem_append_left _ he2m
              have ho2 := spliceLeftmost_ordered h7 hs
              have hgt := spliceLeftmost_gt h7 hs
              simp only [eraseRoot, hs]
              refine ⟨?_, ?_, h3, ?_, ?_, ho2, h8⟩
              · intro k hkm
                exact (h1 k hkm).trans (h2 e2 he2)
              · intro k hkm
                simp only [keysT, List.mem_append, List.mem_cons] at hkm
                rcases hkm with hkm | hkm | hkm
                · exact hgt k hkm
                · subst hkm
                  exact h5 e2 (by rw [hk]; simp)
                · exact (h5 e2 (by rw [hk]; simp)).trans (h6 k hkm)
              · intro k hkm
                exact h5 k (by rw [hk]; exact List.mem_cons_of_mem _ hkm)
              · exact h6

theorem spliceLeftmost_parentsOk {t : T} {j : Nat} {e : Key} {t2 : T}
    {q : Option Nat} (hp : ParentsOk t q) (h : spliceLeftmost t = some (j, e, t2)) :
    ParentsOk t2 q := by
  induction t generalizing t2 q with
  | nil => simp [spliceLeftmost] at h
  | node i d p l r ihl ihr =>
      cases hsl : spliceLeftmost l with
      | none =>
          simp only [spliceLeftmost, hsl, Option.some.injEq, Prod.mk.injEq] at h
          obtain ⟨rfl, rfl, rfl⟩ := h
          exact hp.1 ▸ ParentsOk_setParentT p hp.2.2
      | some q2 =>
          obtain ⟨j0, e0, l2⟩ := q2
          simp only [spliceLeftmost, hsl, Option.some.injEq, Prod.mk.injEq] at h
          obtain ⟨rfl, rfl, rfl⟩ := h
          exact ⟨hp.1, ihl hp.2.1 hsl, hp.2.2⟩

theorem eraseRoot_parentsOk {i : Nat} {d : Key} {p : Option Nat} {l r : T}
    {q : Option Nat} (hp : ParentsOk (T.node i d p l r) q) :
    ParentsOk (eraseRoot i d p l r) q := by
  obtain ⟨hp1, hp2, hp3⟩ := hp
  cases r with
  | nil => exact hp1 ▸ ParentsOk_setParentT p hp2
  | node ri rd rp rl rr =>
      obtain ⟨hq1, hq2, hq3⟩ := hp3
      cases rl with
      | nil => exact ⟨hp1, ParentsOk_setParentT _ hp2, hq3⟩
      | node a b c e f =>
          cases hs : spliceLeftmost (T.node a b c e f) with
          | none => exact absurd (spliceLeftmost_eq_none_iff.mp hs) (by simp)
          | some q2 =>
              obtain ⟨j, e2, rl2⟩ := q2
              simp only [eraseRoot, hs]
              exact ⟨hp1, hp2, hq1, spliceLeftmost_parentsOk hq2 hs, hq3⟩

theorem eraseT_none_iff {x : Key} {t : T} : eraseT x t = none ↔ find_node x t = none := by
  induction t with
  | nil => simp [eraseT, find_node]
  | node i d p l r ihl ihr =>
      simp only [eraseT, find_node]
      split_ifs with h1 h2
      · simp
      · cases hel : eraseT x l with
        | none => simpa [hel] using ihl.mp hel
        | some l2 =>
            simp only [hel]
            constructor
            · intro hc; exact absurd hc (by simp)
            · intro hf
              rw [ihl.mpr hf] at hel
              exact absurd hel (by simp)
      · cases her : eraseT x r with
        | none => simpa [her] using ihr.mp her
        | some r2 =>
            simp only [her]
            constructor
            · intro hc; exact absurd hc (by simp)
            · intro hf
              rw [ihr.mpr hf] at her
              exact absurd her (by simp)

theorem eraseT_spec {x : Key} {t t2 : T} (h : eraseT x t = some t2) :
    (∃ u v, keysT t = u ++ x :: v ∧ keysT t2 = u ++ v) ∧
      (∃ j, (idsT t).Perm (j :: idsT t2)) ∧
      (Ordered t → Ordered t2) ∧
      (∀ q, ParentsOk t q → ParentsOk t2 q) := by
  induction t generalizing t2 with
  | nil => simp [eraseT] at h
  | node i d p l r ihl ihr =>
      simp only [eraseT] at h
      split_ifs at h with h1 h2
      · subst h1
        cases h
        refine ⟨⟨keysT l, keysT r, by simp [keysT], eraseRoot_keysT i x p l r⟩,
          eraseRoot_ids i x p l r, fun ho => eraseRoot_ordered ho,
          fun q hq => eraseRoot_parentsOk hq⟩
      · cases hel : eraseT x l with
        | none => rw [hel] at h; exact absurd h (by simp)
        | some l2 =>
            rw [hel] at h
            cases h
            obtain ⟨⟨u, v, hk1, hk2⟩, ⟨j, hperm⟩, hord, hpar⟩ := ihl hel
            refine ⟨⟨u, v ++ d :: keysT r, by simp [keysT, hk1], by simp [keysT, hk2]⟩,
              ⟨j, ?_⟩, ?_, ?_⟩
            · simp only [idsT]
              refine List.Perm.trans (List.Perm.cons i (hperm.append_right _))
                (List.Perm.swap j i _)
            · intro ho
              obtain ⟨g1, g2, g3, g4⟩ := ho
              refine ⟨?_, g2, hord g3, g4⟩
              intro k hk
              apply g1
              rw [hk1]
              rw [hk2] at hk
              simp only [List.mem_append] at hk ⊢
              rcases hk with hk | hk
              · exact Or.inl hk
              · exact Or.inr (List.mem_cons_of_mem _ hk)
            · intro q hq
              exact ⟨hq.1, hpar _ hq.2.1, hq.2.2⟩
      · cases her : eraseT x r with
        | none => rw [her] at h; exact absurd h (by simp)
        | some r2 =>
            rw [her] at h
            cases h
            obtain ⟨⟨u, v, hk1, hk2⟩, ⟨j, hperm⟩, hord, hpar⟩ := ihr her
            refine ⟨⟨keysT l ++ d :: u, v, by simp [keysT, hk1], by simp [keysT, hk2]⟩,
              ⟨j, ?_⟩, ?_, ?_⟩
            · simp only [idsT]
              refine List.Perm.trans (List.Perm.cons i ?_) (List.Perm.swap j i _)
              exact List.Perm.trans ((hperm.append_left _))
                List.perm_middle
            · intro ho
              obtain ⟨g1, g2, g3, g4⟩ := ho
              refine ⟨g1, ?_, g3, hord g4⟩
              intro k hk
              apply g2
              rw [hk1]
              rw [hk2] at hk
              simp only [List.mem_append] at hk ⊢
              rcases hk with hk | hk
              · exact Or.inl hk
              · exact Or.inr (List.mem_cons_of_mem _ hk)
            · intro q hq
              exact ⟨hq.1, hq.2.1, hpar _ hq.2.2⟩

/-! ### Container-level `erase` -/

theorem erase_of_absent {b : BST} {x : Key} (ho : Ordered b.root)
    (h : x ∉ keysT b.root) : b.erase x = (b, 0) := by
  have hf : find_node x b.root = none := (find_node_eq_none_iff ho).mpr h
  have he : eraseT x b.root = none := eraseT_none_iff.mpr hf
  simp [BST.erase, he]

theorem erase_of_mem {b : BST} {x : Key} (ho : Ordered b.root)
    (h : x ∈ keysT b.root) :
    ∃ t2, eraseT x b.root = some t2 ∧ (b.erase x).1 = ⟨t2, b.m_size - 1, b.nextId⟩ ∧
      (b.erase x).2 = 1 := by
  obtain ⟨i, hf⟩ := find_node_mem ho h
  cases he : eraseT x b.root with
  | none => rw [eraseT_none_iff.mp he] at hf; exact absurd hf (by simp)
  | some t2 => exact ⟨t2, rfl, by simp [BST.erase, he], by simp [BST.erase, he]⟩

theorem mem_keysT_eraseT {x : Key} {t t2 : T} (ho : Ordered t)
    (h : eraseT x t = some t2) :
    ∀ k, k ∈ keysT t2 ↔ (k ∈ keysT t ∧ k ≠ x) := by
  obtain ⟨⟨u, v, hk1, hk2⟩, _, _, _⟩ := eraseT_spec h
  have hs := sorted_keysT ho
  rw [hk1] at hs
  obtain ⟨hxu, hxv⟩ := not_mem_middle_of_sorted hs
  intro k
  rw [hk1, hk2]
  simp only [List.mem_append, List.mem_cons]
  constructor
  · intro hk
    rcases hk with hk | hk
    · exact ⟨Or.inl hk, fun he => hxu (he ▸ hk)⟩
    · exact ⟨Or.inr (Or.inr hk), fun he => hxv (he ▸ hk)⟩
  · rintro ⟨hk | hk | hk, hne⟩
    · exact Or.inl hk
    · exact absurd hk hne
    · exact Or.inr hk

theorem Ordered_erase {b : BST} (x : Key) (ho : Ordered b.root) :
    Ordered (b.erase x).1.root := by
  cases he : eraseT x b.root with
  | none => simpa [BST.erase, he] using ho
  | some t2 =>
      have := (eraseT_spec he).2.2.1 ho
      simpa [BST.erase, he]

/-! ### Subtree occurrence and address lookup -/

theorem Sub.trans2 {a b c : T} (h1 : Sub a b) (h2 : Sub b c) : Sub a c := by
  induction h2 with
  | refl => exact h1
  | left i d p _ ih => exact Sub.left i d p ih
  | right i d p _ ih => exact Sub.right i d p ih

theorem sub_ids_sublist {s t : T} (h : Sub s t) : (idsT s).Sublist (idsT t) := by
  induction h with
  | refl => exact List.Sublist.refl _
  | left i d p _ ih =>
      exact ih.trans ((List.sublist_append_left _ _).cons i)
  | right i d p _ ih =>
      exact ih.trans ((List.sublist_append_right _ _).cons i)

theorem sub_nodup {s t : T} (h : Sub s t) (hnd : (idsT t).Nodup) : (idsT s).Nodup :=
  List.Nodup.sublist (sub_ids_sublist h) hnd

theorem sub_root_mem {s t : T} {i : Nat} (h : Sub s t) (hi : rootId s = some i) :
    i ∈ idsT t := by
  have : i ∈ idsT s := by
    cases s with
    | nil => simp [rootId] at hi
    | node j d p l r =>
        simp only [rootId, Option.some.injEq] at hi
        simp [idsT, hi]
  exact (sub_ids_sublist h).mem this

theorem findId_eq_none {t : T} {i : Nat} (h : i ∉ idsT t) : findId t i = none := by
  induction t with
  | nil => rfl
  | node j d p l r ihl ihr =>
      simp only [idsT, List.mem_cons, List.mem_append] at h
      push_neg at h
      obtain ⟨h1, h2, h3⟩ := h
      simp [findId, h1, ihl h2, ihr h3]

theorem findId_sub {t : T} {i : Nat} {d : Key} {p : Option Nat} {l r : T}
    (hnd : (idsT t).Nodup) (h : Sub (T.node i d p l r) t) :
    findId t i = some (d, p, l, r) := by
  induction t with
  | nil => cases h
  | node j e q a b iha ihb =>
      have hnd1 : (j :: (idsT a ++ idsT b)).Nodup := hnd
      have hnd2 := List.nodup_cons.mp hnd1
      have hnda : (idsT a).Nodup := (hnd2.2).of_append_left
      have hndb : (idsT b).Nodup := (hnd2.2).of_append_right
      have hdis : ∀ x, x ∈ idsT a → x ∉ idsT b :=
        fun x hx => (List.disjoint_of_nodup_append hnd2.2) hx
      cases h with
      | refl => simp [findId]
      | left _ _ _ hsub =>
          have hia : i ∈ idsT a := sub_root_mem hsub rfl
          have hij : ¬ i = j := by
            intro he
            exact hnd2.1 (by subst he; simp [List.mem_append, hia])
          simp [findId, hij, iha hnda hsub]
      | right _ _ _ hsub =>
          have hib : i ∈ idsT b := sub_root_mem hsub rfl
          have hij : ¬ i = j := by
            intro he
            exact hnd2.1 (by subst he; simp [List.mem_append, hib])
          have hna : findId a i = none := findId_eq_none (fun hc => hdis i hc hib)
          simp [findId, hij, hna, ihb hndb hsub]

/-! ### Context lemmas -/

theorem plug_sub (c : Ctx) (s : T) : Sub s (plug c s) := by
  induction c generalizing s with
  | top => exact Sub.refl s
  | inL i d p r c ih => exact Sub.trans2 (Sub.left i d p (Sub.refl s)) (ih _)
  | inR i d p l c ih => exact Sub.trans2 (Sub.right i d p (Sub.refl s)) (ih _)

theorem parentsOk_plug {c : Ctx} {s : T} (h : ParentsOk (plug c s) none) :
    ParentsOk s (ctxHead c) := by
  induction c generalizing s with
  | top => exact h
  | inL i d p r c ih => exact (ih h).2.1
  | inR i d p l c ih => exact (ih h).2.2

theorem sizeT_plug (c : Ctx) (s : T) : ctxDepth c + sizeT s ≤ sizeT (plug c s) := by
  induction c generalizing s with
  | top => simp [ctxDepth, plug]
  | inL i d p r c ih =>
      have := ih (T.node i d p s r)
      simp only [sizeT] at this
      simp only [plug, ctxDepth]
      omega
  | inR i d p l c ih =>
      have := ih (T.node i d p l s)
      simp only [sizeT] at this
      simp only [plug, ctxDepth]
      omega

theorem afterK_of_nextUp_none {c : Ctx} (h : nextUp c = none) : afterK c = [] := by
  induction c with
  | top => rfl
  | inL i d p r c ih => simp [nextUp] at h
  | inR i d p l c ih => exact ih h

theorem nextUp_decomp {c : Ctx} {j : Nat} {e : Key} (h : nextUp c = some (j, e)) :
    ∀ s, ∃ q lj rj c2, plug c s = plug c2 (T.node j e q lj rj) ∧
      afterK c = e :: (keysT rj ++ afterK c2) := by
  induction c with
  | top => simp [nextUp] at h
  | inL i d p r c ih =>
      intro s
      simp only [nextUp, Option.some.injEq, Prod.mk.injEq] at h
      obtain ⟨rfl, rfl⟩ := h
      exact ⟨p, s, r, c, rfl, rfl⟩
  | inR i d p l c ih =>
      intro s
      obtain ⟨q, lj, rj, c2, h1, h2⟩ := ih h (T.node i d p l s)
      exact ⟨q, lj, rj, c2, h1, h2⟩

/-! ### The successor climb -/

theorem climb_eq {t : T} (hpar : ParentsOk t none) (hnd : (idsT t).Nodup) :
    ∀ (c : Ctx) (i : Nat) (d : Key) (p : Option Nat) (l r : T) (f : Nat),
      plug c (T.node i d p l r) = t → ctxDepth c < f →
      climb t f i = nextUp c := by
  intro c
  induction c with
  | top =>
      intro i d p l r f hp hf
      have hfind : findId t i = some (d, p, l, r) :=
        findId_sub hnd (hp ▸ plug_sub Ctx.top _)
      have hpn : p = none := by
        have := parentsOk_plug (c := Ctx.top) (s := T.node i d p l r) (hp ▸ hpar)
        exact this.1
      cases f with
      | zero => omega
      | succ f2 => simp [climb, hfind, hpn, nextUp]
  | inL j e q r0 c ih =>
      intro i d p l r f hp hf
      have hsub1 : Sub (T.node j e q (T.node i d p l r) r0) t := hp ▸ plug_sub c _
      have hfind : findId t i = some (d, p, l, r) := by
        refine findId_sub hnd (Sub.trans2 ?_ hsub1)
        exact Sub.left j e q (Sub.refl _)
      have hpj : p = some j := by
        have := parentsOk_plug (c := Ctx.inL j e q r0 c) (s := T.node i d p l r)
          (hp ▸ hpar)
        exact this.1
      have hfj : findId t j = some (e, q, T.node i d p l r, r0) :=
        findId_sub hnd hsub1
      cases f with
      | zero => omega
      | succ f2 => simp [climb, hfind, hpj, hfj, rootId, nextUp]
  | inR j e q l0 c ih =>
      intro i d p l r f hp hf
      have hsub1 : Sub (T.node j e q l0 (T.node i d p l r)) t := hp ▸ plug_sub c _
      have hfind : findId t i = some (d, p, l, r) := by
        refine findId_sub hnd (Sub.trans2 ?_ hsub1)
        exact Sub.right j e q (Sub.refl _)
      have hpj : p = some j := by
        have := parentsOk_plug (c := Ctx.inR j e q l0 c) (s := T.node i d p l r)
          (hp ▸ hpar)
        exact this.1
      have hfj : findId t j = some (e, q, l0, T.node i d p l r) :=
        findId_sub hnd hsub1
      have hndj : (idsT (T.node j e q l0 (T.node i d p l r))).Nodup :=
        sub_nodup hsub1 hnd
      have hrl0 : ¬ rootId l0 = some i := by
        intro hc
        have hil0 : i ∈ idsT l0 := by
          cases l0 with
          | nil => simp [rootId] at hc
          | node a2 b2 c2 d2 e2 =>
              simp only [rootId, Option.some.injEq] at hc
              simp [idsT, hc]
        have hir : i ∈ idsT (T.node i d p l r) := by simp [idsT]
        have hnd4 : (j :: (idsT l0 ++ idsT (T.node i d p l r))).Nodup := hndj
        have hnd3 := List.nodup_cons.mp hnd4
        exact (List.disjoint_of_nodup_append hnd3.2) hil0 hir
      cases f with
      | zero => omega
      | succ f2 =>
          have hrec : climb t f2 j = nextUp c := by
            refine ih j e q l0 (T.node i d p l r) f2 hp ?_
            simp only [ctxDepth] at hf
            omega
          simp [climb, hfind, hpj, hfj, hrl0, nextUp, hrec]

/-! ### Iteration -/

theorem iterFrom_none (t : T) (f : Nat) : iterFrom t f none = [] := by
  cases f <;> rfl

theorem left_most_eq_none_iff {t : T} : left_most t = none ↔ t = T.nil := by
  cases t with
  | nil => simp [left_most]
  | node i d p l r =>
      cases hl : left_most l with
      | none => simp [left_most, hl]
      | some q => simp [left_most, hl]

theorem left_most_node_nil (i : Nat) (d : Key) (p : Option Nat) (r : T) :
    left_most (T.node i d p T.nil r) = some (i, d) := rfl

theorem left_most_node_ne {i : Nat} {d : Key} {p : Option Nat} {l r : T}
    (h : l ≠ T.nil) : left_most (T.node i d p l r) = left_most l := by
  cases hl : left_most l with
  | none => exact absurd (left_most_eq_none_iff.mp hl) h
  | some q => simp [left_most, hl]

theorem iterFrom_from_leftmost_aux {t : T} {f : Nat}
    (hm : ∀ (c : Ctx) (i : Nat) (d : Key) (p : Option Nat) (l r : T),
      plug c (T.node i d p l r) = t →
      1 + (keysT r).length + (afterK c).length ≤ f →
      iterFrom t f (some (i, d)) = d :: (keysT r ++ afterK c)) :
    ∀ (s : T) (c : Ctx), s ≠ T.nil → plug c s = t →
      (keysT s).length + (afterK c).length ≤ f →
      iterFrom t f (left_most s) = keysT s ++ afterK c := by
  intro s
  induction s with
  | nil => intro c h; exact absurd rfl h
  | node i d p l r ihl ihr =>
      intro c _ hp hb
      by_cases hl : l = T.nil
      · subst hl
        rw [left_most_node_nil]
        have hb2 : 1 + (keysT r).length + (afterK c).length ≤ f := by
          simp only [keysT, List.nil_append, List.length_cons] at hb
          omega
        rw [hm c i d p T.nil r hp hb2]
        simp [keysT]
      · rw [left_most_node_ne hl]
        have hb2 : (keysT l).length + (afterK (Ctx.inL i d p r c)).length ≤ f := by
          simp only [afterK, keysT, List.length_append, List.length_cons] at hb ⊢
          omega
        rw [ihl (Ctx.inL i d p r c) hl hp hb2]
        simp [afterK, keysT, List.append_assoc]

theorem iterFrom_at_node {t : T} (hpar : ParentsOk t none)
    (hnd : (idsT t).Nodup) :
    ∀ (f : Nat) (c : Ctx) (i : Nat) (d : Key) (p : Option Nat) (l r : T),
      plug c (T.node i d p l r) = t →
      1 + (keysT r).length + (afterK c).length ≤ f →
      iterFrom t f (some (i, d)) = d :: (keysT r ++ afterK c) := by
  intro f
  induction f using Nat.strong_induction_on with
  | _ f ih =>
      intro c i d p l r hp hb
      have hsub : Sub (T.node i d p l r) t := hp ▸ plug_sub c _
      have hfind : findId t i = some (d, p, l, r) := findId_sub hnd hsub
      cases f with
      | zero => omega
      | succ f2 =>
          have hlt : f2 < f2 + 1 := Nat.lt_succ_self f2
          simp only [iterFrom]
          congr 1
          cases r with
          | node ri rd2 rp2 rl2 rr2 =>
              have hsucc : successorN t i = left_most (T.node ri rd2 rp2 rl2 rr2) := by
                simp [successorN, hfind]
              rw [hsucc]
              have hb2 : (keysT (T.node ri rd2 rp2 rl2 rr2)).length +
                  (afterK (Ctx.inR i d p l c)).length ≤ f2 := by
                simp only [afterK] at hb ⊢
                omega
              rw [iterFrom_from_leftmost_aux (t := t) (f := f2)
                (fun c3 i3 d3 p3 l3 r3 hp3 hb3 => ih f2 hlt c3 i3 d3 p3 l3 r3 hp3 hb3)
                (T.node ri rd2 rp2 rl2 rr2) (Ctx.inR i d p l c) (by simp) hp hb2]
              rfl
          | nil =>
              have hsucc : successorN t i = climb t (sizeT t) i := by
                simp [successorN, hfind]
              rw [hsucc]
              have hdep : ctxDepth c < sizeT t := by
                have := sizeT_plug c (T.node i d p l T.nil)
                rw [hp] at this
                simp only [sizeT] at this
                omega
              rw [climb_eq hpar hnd c i d p l T.nil (sizeT t) hp hdep]
              cases hnu : nextUp c with
              | none =>
                  rw [iterFrom_none, afterK_of_nextUp_none hnu]
                  simp [keysT]
              | some je =>
                  obtain ⟨j, e⟩ := je
                  obtain ⟨q, lj, rj, c2, hpe, hae⟩ :=
                    nextUp_decomp hnu (T.node i d p l T.nil)
                  have hp2 : plug c2 (T.node j e q lj rj) = t := by
                    rw [← hpe]; exact hp
                  have hb2 : 1 + (keysT rj).length + (afterK c2).length ≤ f2 := by
                    have hlen := congrArg List.length hae
                    simp only [List.length_cons, List.length_append] at hlen
                    simp only [keysT, List.length_nil] at hb
                    omega
                  rw [ih f2 hlt c2 j e q lj rj hp2 hb2, hae]
                  simp [keysT]

theorem traversal_eq_keysT {b : BST} (hpar : ParentsOk b.root none)
    (hnd : (idsT b.root).Nodup) : traversal b = keysT b.root := by
  cases hr : b.root with
  | nil => simp [traversal, BST.begin, hr, sizeT, left_most, iterFrom, keysT]
  | node i d p l r =>
      have hpar2 : ParentsOk (T.node i d p l r) none := hr ▸ hpar
      have hnd2 : (idsT (T.node i d p l r)).Nodup := hr ▸ hnd
      have hm := iterFrom_at_node (t := T.node i d p l r) hpar2 hnd2
        (sizeT (T.node i d p l r))
      have hb : (keysT (T.node i d p l r)).length + (afterK Ctx.top).length ≤
          sizeT (T.node i d p l r) := by
        simp [afterK, sizeT_eq_keysT_length]
      have hfin := iterFrom_from_leftmost_aux (t := T.node i d p l r)
        (f := sizeT (T.node i d p l r)) hm (T.node i d p l r) Ctx.top
        (by simp) rfl hb
      simp only [traversal, BST.begin, hr]
      rw [hfin]
      simp [afterK]

/-! ### Run-level invariants -/

theorem WF_empty : WF BST.empty := by
  refine ⟨trivial, trivial, List.nodup_nil, ?_, rfl⟩
  intro i hi
  simp [BST.empty, idsT] at hi

theorem WF_insertList {b : BST} (h : WF b) (ks : List Key) :
    WF (insertList b ks) := by
  induction ks generalizing b with
  | nil => exact h
  | cons a as ih => exact ih (WF_insert a h)

theorem WF_insertAll (ks : List Key) : WF (insertAll ks) :=
  WF_insertList WF_empty ks

theorem mem_keysT_insertList {b : BST} (ho : Ordered b.root) (ks : List Key)
    (k : Key) :
    k ∈ keysT (insertList b ks).root ↔ (k ∈ ks ∨ k ∈ keysT b.root) := by
  induction ks generalizing b with
  | nil => simp [insertList]
  | cons a as ih =>
      simp only [insertList]
      rw [ih (Ordered_insert a ho), mem_keysT_insert ho]
      simp only [List.mem_cons]
      tauto

theorem mem_keysT_insertAll (ks : List Key) (k : Key) :
    k ∈ keysT (insertAll ks).root ↔ k ∈ ks := by
  rw [insertAll, mem_keysT_insertList (show Ordered BST.empty.root from trivial)]
  simp [BST.empty, keysT]

theorem inv2_runOps (ops : List Op) :
    Ordered (runOps ops).root ∧
      (runOps ops).m_size = (keysT (runOps ops).root).length := by
  induction ops with
  | nil => exact ⟨trivial, rfl⟩
  | cons o os ih =>
      obtain ⟨ho, hs⟩ := ih
      cases o with
      | ins k =>
          simp only [runOps, applyOp]
          refine ⟨Ordered_insert k ho, ?_⟩
          cases hf : find_node k (runOps os).root with
          | some q => rw [insert_of_found hf]; exact hs
          | none =>
              obtain ⟨u, v, hk1, hk2⟩ := insertT_keys_split (n := (runOps os).nextId) hf
              have h2 := insert_of_none hf
              rw [h2.2.1, insert_root_eq, hk2]
              rw [hs, hk1]
              simp
              omega
      | del k =>
          simp only [runOps, applyOp]
          cases he : eraseT k (runOps os).root with
          | none =>
              simp only [BST.erase, he]
              exact ⟨ho, hs⟩
          | some t2 =>
              obtain ⟨⟨u, v, hk1, hk2⟩, _, hord, _⟩ := eraseT_spec he
              simp only [BST.erase, he]
              refine ⟨hord ho, ?_⟩
              rw [hk2, hs, hk1]
              simp

/-! ### `min` and `max` -/

theorem left_most_min {t : T} (ho : Ordered t) (hne : t ≠ T.nil) :
    ∃ i m, left_most t = some (i, m) ∧ m ∈ keysT t ∧ ∀ k ∈ keysT t, m ≤ k := by
  induction t with
  | nil => exact absurd rfl hne
  | node i d p l r ihl ihr =>
      obtain ⟨h1, h2, h3, h4⟩ := ho
      by_cases hl : l = T.nil
      · subst hl
        refine ⟨i, d, left_most_node_nil i d p r, by simp [keysT], ?_⟩
        intro k hk
        simp only [keysT, List.nil_append, List.mem_cons] at hk
        rcases hk with hk | hk
        · exact le_of_eq hk.symm
        · exact le_of_lt (h2 k hk)
      · obtain ⟨i0, m, hlm, hmem, hall⟩ := ihl h3 hl
        refine ⟨i0, m, by rw [left_most_node_ne hl]; exact hlm, ?_, ?_⟩
        · simp only [keysT, List.mem_append]
          exact Or.inl hmem
        · intro k hk
          simp only [keysT, List.mem_append, List.mem_cons] at hk
          rcases hk with hk | hk | hk
          · exact hall k hk
          · exact le_of_lt (hk ▸ h1 m hmem)
          · exact le_of_lt ((h1 m hmem).trans (h2 k hk))

theorem right_most_max {t : T} (ho : Ordered t) (hne : t ≠ T.nil) :
    ∃ i m, right_most t = some (i, m) ∧ m ∈ keysT t ∧ ∀ k ∈ keysT t, k ≤ m := by
  induction t with
  | nil => exact absurd rfl hne
  | node i d p l r ihl ihr =>
      obtain ⟨h1, h2, h3, h4⟩ := ho
      by_cases hr : r = T.nil
      · subst hr
        have hrm : right_most (T.node i d p l T.nil) = some (i, d) := rfl
        refine ⟨i, d, hrm, by simp [keysT], ?_⟩
        intro k hk
        simp only [keysT, List.append_nil, List.mem_append, List.mem_singleton] at hk
        rcases hk with hk | hk
        · exact le_of_lt (h1 k hk)
        · exact le_of_eq hk
      · obtain ⟨i0, m, hlm, hmem, hall⟩ := ihr h4 hr
        have hrm : right_most (T.node i d p l r) = right_most r := by
          cases hq : right_most r with
          | none =>
              cases r with
              | nil => exact absurd rfl hr
              | node a b c e f =>
                  cases hq2 : right_most f <;> simp [right_most, hq2] at hq
          | some q => simp [right_most, hq]
        refine ⟨i0, m, by rw [hrm]; exact hlm, ?_, ?_⟩
        · simp only [keysT, List.mem_append, List.mem_cons]
          exact Or.inr (Or.inr hmem)
        · intro k hk
          simp only [keysT, List.mem_append, List.mem_cons] at hk
          rcases hk with hk | hk | hk
          · exact le_of_lt ((h1 k hk).trans (h2 m hmem))
          · exact le_of_lt (hk ▸ h2 m hmem)
          · exact hall k hk

theorem spliceLeftmost_left_most {t : T} {j : Nat} {e : Key} {t2 : T}
    (h : spliceLeftmost t = some (j, e, t2)) : left_most t = some (j, e) := by
  induction t generalizing t2 with
  | nil => simp [spliceLeftmost] at h
  | node i d p l r ihl ihr =>
      cases hsl : spliceLeftmost l with
      | none =>
          have hl : l = T.nil := spliceLeftmost_eq_none_iff.mp hsl
          subst hl
          simp only [spliceLeftmost, hsl, Option.some.injEq, Prod.mk.injEq] at h
          obtain ⟨rfl, rfl, rfl⟩ := h
          exact left_most_node_nil i d p r
      | some q =>
          obtain ⟨j0, e0, l2⟩ := q
          simp only [spliceLeftmost, hsl, Option.some.injEq, Prod.mk.injEq] at h
          obtain ⟨rfl, rfl, rfl⟩ := h
          rw [left_most_node_ne (fun hc => by subst hc; simp [spliceLeftmost] at hsl)]
          exact ihl hsl

theorem insert_pos_key (b : BST) (k : Key) : (b.insert k).2.1.2 = k := by
  cases hf : find_node k b.root with
  | some q => rw [insert_of_found hf]; exact (find_node_some hf).1
  | none => rw [(insert_of_none hf).1]

/-! ## The claims -/

/-- C1: the claim states that after every public operation the structural
invariants hold and in particular that a node newly created by `insert`
carries no children.  The code violates this: `create_node` (bst.h:261-267)
obtains raw storage from `node_alloc.allocate(1)` and writes only `data` and
`parent`, never `edge[0]`/`edge[1]`, so the freshly created node keeps the
residual contents of the allocation as its child links.  The theorem
evaluates the heap-level model of the code at a failing input: inserting `5`
into the empty tree when the allocated cell's residual child words are
non-null produces a root that carries a child link, and in general
`create_node` returns the residual child fields untouched. -/
theorem C1_create_node_uninitialized :
    (insertEmptyH ⟨0, none, some 0, some 0⟩ 5).1.2.left = some 0 ∧
    (insertEmptyH ⟨0, none, some 0, some 0⟩ 5).1.2.right = some 0 ∧
    (insertEmptyH ⟨0, none, some 0, some 0⟩ 5).1.2.left ≠ none ∧
    (∀ residual x p, create_nodeH residual x p =
      ⟨x, p, residual.left, residual.right⟩) := by
  refine ⟨rfl, rfl, by simp [insertEmptyH, create_nodeH], ?_⟩
  intro residual x p
  rfl

/-- C2: after every finite sequence of single-key `insert` and `erase` calls
starting from the empty tree, `size()` equals the number of distinct keys
currently present; an insert of a present key and an erase of an absent key
leave `size()` unchanged. -/
theorem C2_size_correct (ops : List Op) :
    (runOps ops).m_size = (keysT (runOps ops).root).length ∧
    (keysT (runOps ops).root).Nodup ∧
    (∀ k, k ∈ keysT (runOps ops).root →
      ((runOps ops).insert k).1.m_size = (runOps ops).m_size) ∧
    (∀ k, k ∉ keysT (runOps ops).root →
      ((runOps ops).erase k).1.m_size = (runOps ops).m_size) := by
  obtain ⟨ho, hs⟩ := inv2_runOps ops
  refine ⟨hs, nodup_keysT ho, ?_, ?_⟩
  · intro k hk
    obtain ⟨i, hf⟩ := find_node_mem ho hk
    rw [insert_of_found hf]
  · intro k hk
    rw [erase_of_absent ho hk]

theorem C2_size_correct_witness :
    ((runOps [Op.ins 2]).insert 2).1.m_size = (runOps [Op.ins 2]).m_size ∧
    ((runOps [Op.ins 2]).erase 5).1.m_size = (runOps [Op.ins 2]).m_size :=
  ⟨(C2_size_correct [Op.ins 2]).2.2.1 2 (by decide),
   (C2_size_correct [Op.ins 2]).2.2.2 5 (by decide)⟩

/-- C3: on the empty tree `insert x` makes `x` the root, size becomes 1 and
the result is the root position with `inserted = true`; on a present key it
returns the existing node's position with `inserted = false` and no
mutation; on an absent key it creates exactly one new node at the reached
absent child slot, its parent set to the node it descended from, increments
size and returns the new position with `inserted = true`; the descent goes
into the left child exactly when `x` is less than the node's key and into
the right child when it is neither less nor equal. -/
theorem C3_insert_spec (b : BST) (x : Key) (ho : Ordered b.root) :
    (b.root = T.nil → b.m_size = 0 →
      (b.insert x).1.root = T.node b.nextId x none T.nil T.nil ∧
      (b.insert x).1.m_size = 1 ∧ (b.insert x).2 = ((b.nextId, x), true)) ∧
    (∀ q, find_node x b.root = some q → b.insert x = (b, q, false)) ∧
    (x ∉ keysT b.root →
      (b.insert x).2 = ((b.nextId, x), true) ∧
      (b.insert x).1.m_size = b.m_size + 1 ∧
      (b.root ≠ T.nil → OneExt b.nextId x b.root (b.insert x).1.root)) ∧
    (∀ (n : Nat) (i : Nat) (d : Key) (p : Option Nat) (l r : T), x < d →
      ∃ l2, (insertT x n (T.node i d p l r)).1 = T.node i d p l2 r) ∧
    (∀ (n : Nat) (i : Nat) (d : Key) (p : Option Nat) (l r : T),
      ¬ x = d → ¬ x < d →
      ∃ r2, (insertT x n (T.node i d p l r)).1 = T.node i d p l r2) := by
  refine ⟨?_, fun q hf => insert_of_found hf, ?_, ?_, ?_⟩
  · intro hnil hms
    refine ⟨by rw [insert_root_eq, hnil]; rfl, ?_, ?_⟩
    · have hf : find_node x b.root = none := by rw [hnil]; rfl
      rw [(insert_of_none hf).2.1, hms]
    · have hf : find_node x b.root = none := by rw [hnil]; rfl
      exact (insert_of_none hf).1
  · intro hx
    have hf : find_node x b.root = none := (find_node_eq_none_iff ho).mpr hx
    exact ⟨(insert_of_none hf).1, (insert_of_none hf).2.1,
      fun hne => insertT_oneExt hf hne⟩
  · intro n i d p l r hlt
    have hne : ¬ x = d := ne_of_lt hlt
    by_cases hl : l = T.nil
    · exact ⟨create_node x (some i) n, by simp [insertT, hne, hlt, hl]⟩
    · exact ⟨(insertT x n l).1, by simp [insertT, hne, hlt, hl]⟩
  · intro n i d p l r hne hnlt
    by_cases hr : r = T.nil
    · exact ⟨create_node x (some i) n, by simp [insertT, hne, hnlt, hr]⟩
    · exact ⟨(insertT x n r).1, by simp [insertT, hne, hnlt, hr]⟩

theorem C3_insert_spec_witness :
    (BST.empty.insert 5).1.root = T.node 0 5 none T.nil T.nil ∧
    (BST.empty.insert 5).1.m_size = 1 ∧
    (BST.empty.insert 5).2 = ((0, 5), true) :=
  (C3_insert_spec BST.empty 5 (by decide)).1 rfl rfl

/-- C4: erasing an absent key returns the not-removed result `0` and performs
no mutation; erasing a present key removes exactly that key, destroys
exactly one node, decrements the size field by one, keeps the ordering
invariant, and returns the removed result `1`. -/
theorem C4_erase_spec (b : BST) (x : Key) (ho : Ordered b.root) :
    (x ∉ keysT b.root → b.erase x = (b, 0)) ∧
    (x ∈ keysT b.root →
      (b.erase x).2 = 1 ∧
      (b.erase x).1.m_size = b.m_size - 1 ∧
      Ordered (b.erase x).1.root ∧
      (∃ u v, keysT b.root = u ++ x :: v ∧ keysT (b.erase x).1.root = u ++ v) ∧
      (∃ j, (idsT b.root).Perm (j :: idsT (b.erase x).1.root))) := by
  refine ⟨fun h => erase_of_absent ho h, fun h => ?_⟩
  obtain ⟨t2, he, hb1, hb2⟩ := erase_of_mem ho h
  obtain ⟨hkk, hjj, hord, _⟩ := eraseT_spec he
  refine ⟨hb2, by rw [hb1], by rw [hb1]; exact hord ho, by rw [hb1]; exact hkk,
    by rw [hb1]; exact hjj⟩

theorem C4_erase_spec_witness :
    (insertAll [1, 2]).erase 5 = (insertAll [1, 2], 0) ∧
    ((insertAll [1, 2]).erase 1).2 = 1 :=
  ⟨(C4_erase_spec (insertAll [1, 2]) 5 (by decide)).1 (by decide),
   ((C4_erase_spec (insertAll [1, 2]) 1 (by decide)).2 (by decide)).1⟩

/-- C5: for every finite insertion sequence starting from the empty tree,
iterating the in-order cursor from `begin()` to `end()` yields exactly the
keys present, in strictly ascending order; in particular inserting
`[5, 3, 8, 1, 4, 7, 9]` yields the traversal `[1, 3, 4, 5, 7, 8, 9]` with
`min() = 1`, `max() = 9`, `size() = 7`, and after erasing `5` the traversal
is `[1, 3, 4, 7, 8, 9]` with `size() = 6`, `find(5)` absent and `find(7)`
present. -/
theorem C5_traversal_sorted (ks : List Key) :
    traversal (insertAll ks) = keysT (insertAll ks).root ∧
    (keysT (insertAll ks).root).Sorted (· < ·) ∧
    (∀ k, k ∈ keysT (insertAll ks).root ↔ k ∈ ks) ∧
    traversal (insertAll [5, 3, 8, 1, 4, 7, 9]) = [1, 3, 4, 5, 7, 8, 9] ∧
    (insertAll [5, 3, 8, 1, 4, 7, 9]).min = some 1 ∧
    (insertAll [5, 3, 8, 1, 4, 7, 9]).max = some 9 ∧
    (insertAll [5, 3, 8, 1, 4, 7, 9]).m_size = 7 ∧
    traversal ((insertAll [5, 3, 8, 1, 4, 7, 9]).erase 5).1 = [1, 3, 4, 7, 8, 9] ∧
    ((insertAll [5, 3, 8, 1, 4, 7, 9]).erase 5).1.m_size = 6 ∧
    ((insertAll [5, 3, 8, 1, 4, 7, 9]).erase 5).1.find 5 = none ∧
    ((insertAll [5, 3, 8, 1, 4, 7, 9]).erase 5).1.find 7 = some (0, 7) := by
  obtain ⟨ho, hp, hnd, hbd, hsz⟩ := WF_insertAll ks
  exact ⟨traversal_eq_keysT hp hnd, sorted_keysT ho, mem_keysT_insertAll ks,
    by decide, by decide, by decide, by decide, by decide, by decide,
    by decide, by decide⟩

/-- C6: erasing the key of a node whose right child itself has a left child
replaces the node's key by the key of its in-order successor
`s = leftmost(right child)` (which has no left child and is the least key of
the right subtree), and removes the successor's original slot by the splice
that points `s`'s parent's left edge at `s`'s right child, updating that
child's stored parent; the node's address, its left subtree and the right
child's node are kept, ordering is preserved and parent-link consistency is
maintained. -/
theorem C6_erase_two_children (i ri si : Nat) (d rd sk : Key)
    (p rp : Option Nat) (l rl rr rl2 : T)
    (ho : Ordered (T.node i d p l (T.node ri rd rp rl rr)))
    (hrl : rl ≠ T.nil) (hsp : spliceLeftmost rl = some (si, sk, rl2)) :
    left_most (T.node ri rd rp rl rr) = some (si, sk) ∧
    (∃ sp sr, Sub (T.node si sk sp T.nil sr) rl) ∧
    d < sk ∧ (∀ k ∈ keysT (T.node ri rd rp rl rr), sk ≤ k) ∧
    eraseT d (T.node i d p l (T.node ri rd rp rl rr)) =
      some (T.node i sk p l (T.node ri rd rp rl2 rr)) ∧
    keysT rl = sk :: keysT rl2 ∧ (idsT rl).Perm (si :: idsT rl2) ∧
    Ordered (T.node i sk p l (T.node ri rd rp rl2 rr)) ∧
    (∀ q, ParentsOk (T.node i d p l (T.node ri rd rp rl rr)) q →
      ParentsOk (T.node i sk p l (T.node ri rd rp rl2 rr)) q) := by
  obtain ⟨hkrl, hirl, hsubn⟩ := spliceLeftmost_spec hsp
  have hskr : sk ∈ keysT (T.node ri rd rp rl rr) := by
    apply List.mem_append_left
    rw [hkrl]
    exact List.mem_cons_self _ _
  have her : eraseRoot i d p l (T.node ri rd rp rl rr) =
      T.node i sk p l (T.node ri rd rp rl2 rr) := by
    cases rl with
    | nil => exact absurd rfl hrl
    | node a b c e f => simp [eraseRoot, hsp]
  refine ⟨?_, hsubn, ho.2.1 sk hskr, ?_, ?_, hkrl, hirl, ?_, ?_⟩
  · rw [left_most_node_ne hrl]
    exact spliceLeftmost_left_most hsp
  · intro k hk
    have hs := sorted_keysT ho.2.2.2
    have hkr : keysT (T.node ri rd rp rl rr) =
        sk :: (keysT rl2 ++ rd :: keysT rr) := by
      simp [keysT, hkrl]
    rw [hkr] at hs hk
    rcases List.mem_cons.mp hk with hk | hk
    · exact le_of_eq hk.symm
    · exact le_of_lt (List.rel_of_sorted_cons hs k hk)
  · simp [eraseT, her]
  · rw [← her]
    exact eraseRoot_ordered ho
  · intro q hq
    rw [← her]
    exact eraseRoot_parentsOk hq

theorem C6_erase_two_children_witness :
    eraseT 10 (T.node 0 10 none T.nil
        (T.node 1 20 (some 0) (T.node 2 15 (some 1) T.nil T.nil) T.nil)) =
      some (T.node 0 15 none T.nil (T.node 1 20 (some 0) T.nil T.nil)) :=
  (C6_erase_two_children 0 1 2 10 20 15 none (some 0) T.nil
    (T.node 2 15 (some 1) T.nil T.nil) T.nil T.nil
    (by decide) (by decide) (by decide)).2.2.2.2.1

/-- C7: `insert k` immediately followed by `find k` locates a position that
compares equal (via the cursor's key-based equality) to the position
`insert` returned; `erase k` followed by `find k` reports the end position;
and after `erase k`, inserting `k` again succeeds with `inserted = true`
while the ordering invariant still holds. -/
theorem C7_round_trip (b : BST) (k : Key) (ho : Ordered b.root) :
    (∃ q, (b.insert k).1.find k = some q ∧
      iterEq (some (b.insert k).2.1) ((b.insert k).1.find k) = true) ∧
    ((b.erase k).1.find k = none) ∧
    (((b.erase k).1.insert k).2.2 = true ∧
      Ordered (((b.erase k).1.insert k).1.root)) := by
  have ho2 : Ordered (b.insert k).1.root := Ordered_insert k ho
  have hoe : Ordered (b.erase k).1.root := Ordered_erase k ho
  have hknot : k ∉ keysT (b.erase k).1.root := by
    by_cases hk : k ∈ keysT b.root
    · obtain ⟨t2, he, hb1, _⟩ := erase_of_mem ho hk
      rw [hb1]
      intro hc
      exact ((mem_keysT_eraseT ho he k).mp hc).2 rfl
    · rw [erase_of_absent ho hk]
      exact hk
  have hfe : find_node k (b.erase k).1.root = none :=
    (find_node_eq_none_iff hoe).mpr hknot
  refine ⟨?_, hfe, ?_⟩
  · have hmem : k ∈ keysT (b.insert k).1.root :=
      (mem_keysT_insert ho k).mpr (Or.inl rfl)
    obtain ⟨i2, hf2⟩ := find_node_mem ho2 hmem
    refine ⟨(i2, k), hf2, ?_⟩
    have hpk := insert_pos_key b k
    show iterEq (some (b.insert k).2.1) (find_node k (b.insert k).1.root) = true
    rw [hf2]
    cases hq : (b.insert k).2.1 with
    | mk a kk =>
        have : kk = k := by rw [← hpk, hq]
        subst this
        simp [iterEq]
  · constructor
    · have := (insert_of_none hfe).1
      rw [this]
    · exact Ordered_insert k hoe

theorem C7_round_trip_witness :
    ((insertAll [3]).erase 3).1.find 3 = none ∧
    (((insertAll [3]).erase 3).1.insert 3).2.2 = true :=
  ⟨(C7_round_trip (insertAll [3]) 3 (by decide)).2.1,
   (C7_round_trip (insertAll [3]) 3 (by decide)).2.2.1⟩

/-- C8: on a non-empty tree `min()` returns the least key and `max()` the
greatest key, both present in the tree; on the empty tree the source
unconditionally dereferences the absent root inside `left_most` /
`right_most` (the call is not guarded), modelled by the absent result. -/
theorem C8_min_max (b : BST) (ho : Ordered b.root) :
    (b.root ≠ T.nil → ∃ m, b.min = some m ∧ m ∈ keysT b.root ∧
      ∀ k ∈ keysT b.root, m ≤ k) ∧
    (b.root ≠ T.nil → ∃ m, b.max = some m ∧ m ∈ keysT b.root ∧
      ∀ k ∈ keysT b.root, k ≤ m) ∧
    (b.root = T.nil → b.min = none ∧ b.max = none) := by
  refine ⟨?_, ?_, ?_⟩
  · intro h
    obtain ⟨i, m, h1, h2, h3⟩ := left_most_min ho h
    exact ⟨m, by simp [BST.min, h1], h2, h3⟩
  · intro h
    obtain ⟨i, m, h1, h2, h3⟩ := right_most_max ho h
    exact ⟨m, by simp [BST.max, h1], h2, h3⟩
  · intro h
    rw [show b.min = (match left_most b.root with
        | none => none | some q => some q.2) from rfl]
    rw [show b.max = (match right_most b.root with
        | none => none | some q => some q.2) from rfl]
    rw [h]
    exact ⟨rfl, rfl⟩

theorem C8_min_max_witness :
    (∃ m, (insertAll [2, 1]).min = some m ∧ m ∈ keysT (insertAll [2, 1]).root ∧
      ∀ k ∈ keysT (insertAll [2, 1]).root, m ≤ k) ∧
    (BST.empty.min = none ∧ BST.empty.max = none) :=
  ⟨(C8_min_max (insertAll [2, 1]) (by decide)).1 (by decide),
   (C8_min_max BST.empty (by decide)).2.2 rfl⟩

/-- C9: two cursor instances compare equal exactly when both are past the
end or both reference nodes holding equal keys. -/
theorem C9_iterator_eq (p q : Iter) :
    iterEq p q = true ↔
      ((p = none ∧ q = none) ∨
        ∃ a k1 b2 k2, p = some (a, k1) ∧ q = some (b2, k2) ∧ k1 = k2) := by
  cases p with
  | none =>
      cases q with
      | none => simp [iterEq]
      | some y => obtain ⟨b2, k2⟩ := y; simp [iterEq]
  | some x =>
      obtain ⟨a, k1⟩ := x
      cases q with
      | none => simp [iterEq]
      | some y => obtain ⟨b2, k2⟩ := y; simp [iterEq]

/-- C10: inserting a previously absent key into a non-empty tree modifies
exactly one link of the existing structure — a formerly absent child edge of
the new node's parent, which receives a fresh leaf whose stored parent is
that node — and leaves every existing node's key, other child link and
parent link unchanged; inserting into the empty tree only sets the root; an
insert of a present key modifies nothing. -/
theorem C10_insert_frame (b : BST) (x : Key) (ho : Ordered b.root) :
    (x ∉ keysT b.root → b.root ≠ T.nil →
      OneExt b.nextId x b.root (b.insert x).1.root) ∧
    (x ∉ keysT b.root → b.root = T.nil →
      (b.insert x).1.root = T.node b.nextId x none T.nil T.nil) ∧
    (x ∈ keysT b.root → (b.insert x).1 = b) := by
  refine ⟨?_, ?_, ?_⟩
  · intro h hne
    exact insertT_oneExt ((find_node_eq_none_iff ho).mpr h) hne
  · intro h hnil
    rw [insert_root_eq, hnil]
    rfl
  · intro h
    obtain ⟨i, hf⟩ := find_node_mem ho h
    rw [insert_of_found hf]

theorem C10_insert_frame_witness :
    OneExt (insertAll [5]).nextId 7 (insertAll [5]).root
      ((insertAll [5]).insert 7).1.root :=
  (C10_insert_frame (insertAll [5]) 7 (by decide)).1 (by decide) (by decide)

end Yadslib
